import Mathlib

/-!
# Verification of the `tide-clean-path` path canonicalizer

Shallow embedding of `src/lib.rs`.  An HTTP path (the path component of a
request URI) is modelled as a `List Char`; the middleware's decision is the
`Outcome` type.  The entry point `CleanPath::handle` becomes the pure
function `handle`, built from:

* `has_ext`   — the extension helper `has_ext` of `src/lib.rs` (lines 60-67);
* `fastCond`  — the non-allocating fast-path test (lines 35-37);
* `clean`     — the `path_clean::clean` dependency, modelled from the spec;
* `canonical` — cleaning followed by the trailing-slash policy (lines 42-47).

`str` converts a string literal to its character list for concrete tests.
-/

set_option autoImplicit false

/-- Character list of a string literal, used for concrete paths. -/
def str (s : String) : List Char := s.data

/-- Outcome of the middleware for one request: let the request through
unchanged, or answer a permanent redirect to a new path
(`CleanPath::handle`, src/lib.rs lines 39, 52, 55). -/
inductive Outcome where
  | unchanged : Outcome
  | redirect : List Char → Outcome
deriving DecidableEq

/-- `has_ext` of src/lib.rs (lines 60-67): find the last `.` (Rust
`path.rfind('.')`); if none exists the answer is `false`; otherwise the
substring after that `.` must be non-empty and contain no `/`.  The
substring after the last `.` is, reversed, `takeWhile (· ≠ '.')` of the
reversed path; emptiness and membership of `/` are invariant under
reversal. -/
def has_ext (path : List Char) : Bool :=
  let rev := path.reverse
  if '.' ∈ rev then
    let sub := rev.takeWhile (fun c => decide (c ≠ '.'))
    decide (sub ≠ []) && decide ('/' ∉ sub)
  else false

/-- Rust `original_path.ends_with('/')` (src/lib.rs line 32). -/
def ends_with_slash (path : List Char) : Bool :=
  decide (path.getLast? = some '/')

/-- `needle.is_prefix_of haystack` on character lists, the building block of
the substring test. -/
def begins : List Char → List Char → Bool
  | [], _ => true
  | _ :: _, [] => false
  | a :: s, b :: l => decide (a = b) && begins s l

/-- Rust `haystack.contains(needle)` substring test (src/lib.rs lines
35-36): some suffix of the haystack starts with the needle. -/
def containsSub (sub : List Char) : List Char → Bool
  | [] => begins sub []
  | c :: rest => begins sub (c :: rest) || containsSub sub rest

/-- The fast-path eligibility test of src/lib.rs lines 35-37: no `/.`
substring, no `//` substring, and extension-flag XOR trailing-slash. -/
def fastCond (path : List Char) : Bool :=
  !containsSub ['/', '.'] path && !containsSub ['/', '/'] path &&
    (has_ext path ^^ ends_with_slash path)

/-- Split a path at every `/`; the separators are dropped and the (possibly
empty) segments between them are kept, so a path with `n` slashes yields
`n + 1` segments. -/
def splitOnSlash : List Char → List (List Char)
  | [] => [[]]
  | c :: rest =>
    if c = '/' then [] :: splitOnSlash rest
    else
      match splitOnSlash rest with
      | [] => [[c]]
      | s :: ss => (c :: s) :: ss

/-- One step of the cleaning fold: empty segments (collapsed `/`) and `.`
segments are dropped, `..` pops the last segment of the output stack when
one exists (and is a no-op at the root), anything else is pushed. -/
def cleanStep (stack : List (List Char)) (seg : List Char) : List (List Char) :=
  if seg = [] ∨ seg = ['.'] then stack
  else if seg = ['.', '.'] then stack.dropLast
  else stack ++ [seg]

/-- Reassemble segments with a single `/` between two consecutive ones. -/
def joinSegs : List (List Char) → List Char
  | [] => []
  | [s] => s
  | s :: t :: rest => s ++ '/' :: joinSegs (t :: rest)

/-- Modelled from the spec: the external `path_clean::clean` dependency
(src/lib.rs line 42), which is not part of this repository's sources.  Per
§4.1 slow path: split on `/`, process segments left to right keeping an
output stack — skip empty segments, skip `.`, on `..` pop the previous
segment when a real parent is available and never escape above `/` — then
reassemble as an absolute path beginning with `/`. -/
def clean (path : List Char) : List Char :=
  '/' :: joinSegs ((splitOnSlash path).foldl cleanStep [])

/-- Cleaning plus the trailing-slash policy of src/lib.rs lines 42-47: if
the cleaned path is not `/` and the original ended with `/` or the cleaned
path has no extension, push a trailing `/`. -/
def canonical (path : List Char) : List Char :=
  let trailing_slash := ends_with_slash path
  let cleaned := clean path
  if cleaned ≠ ['/'] then
    if trailing_slash || !has_ext cleaned then cleaned ++ ['/'] else cleaned
  else cleaned

/-- `CleanPath::handle` (src/lib.rs lines 30-56): take the fast path when
eligible, otherwise clean, apply the trailing-slash policy, and redirect
exactly when the result differs from the original path. -/
def handle (original_path : List Char) : Outcome :=
  if fastCond original_path then Outcome.unchanged
  else
    let path := canonical original_path
    if path ≠ original_path then Outcome.redirect path
    else Outcome.unchanged

/-- The path the request proceeds with: the original on pass-through, the
redirect target otherwise. -/
def outPath (p : List Char) : List Char :=
  match handle p with
  | Outcome.unchanged => p
  | Outcome.redirect q => q

/-- A well-formed cleaning-stack entry: a non-empty segment that is neither
`.` nor `..` and contains no `/`. -/
def goodSeg (s : List Char) : Prop :=
  s ≠ [] ∧ s ≠ ['.'] ∧ s ≠ ['.', '.'] ∧ '/' ∉ s

/-- Every element of the list except possibly the last one is non-empty. -/
def nonEmptyButLast : List (List Char) → Prop
  | [] => True
  | [_] => True
  | s :: t :: rest => s ≠ [] ∧ nonEmptyButLast (t :: rest)

/-! ## Basic facts about the substring test -/

lemma containsSub_tail {sub : List Char} {a : Char} {l : List Char}
    (h : containsSub sub (a :: l) = false) : containsSub sub l = false := by
  simp only [containsSub, Bool.or_eq_false_iff] at h
  exact h.2

lemma begins_slash_pair {c : Char} {p : List Char}
    (h : begins ['/', c] ('/' :: p) = false) : p.head? ≠ some c := by
  cases p with
  | nil => simp
  | cons d p' =>
    simp only [begins, decide_eq_true_eq] at h
    simp only [List.head?_cons, ne_eq, Option.some.injEq]
    rintro rfl
    simp at h

lemma head_ne_slash_of_noDouble {p : List Char}
    (h : containsSub ['/', '/'] ('/' :: p) = false) : p.head? ≠ some '/' := by
  simp only [containsSub, Bool.or_eq_false_iff] at h
  exact begins_slash_pair h.1

lemma head_ne_dot_of_noDot {p : List Char}
    (h : containsSub ['/', '.'] ('/' :: p) = false) : p.head? ≠ some '.' := by
  simp only [containsSub, Bool.or_eq_false_iff] at h
  exact begins_slash_pair h.1

/-! ## Basic facts about `splitOnSlash` and `joinSegs` -/

lemma splitOnSlash_ne_nil : ∀ p : List Char, splitOnSlash p ≠ []
  | [] => by simp [splitOnSlash]
  | c :: rest => by
    simp only [splitOnSlash]
    split
    · simp
    · split <;> simp

lemma splitOnSlash_slash (rest : List Char) :
    splitOnSlash ('/' :: rest) = [] :: splitOnSlash rest := by
  simp [splitOnSlash]

lemma splitOnSlash_cons_of {c : Char} {rest s : List Char} {ss : List (List Char)}
    (h : c ≠ '/') (hs : splitOnSlash rest = s :: ss) :
    splitOnSlash (c :: rest) = (c :: s) :: ss := by
  simp only [splitOnSlash, if_neg h, hs]

lemma joinSegs_cons (s : List Char) {rest : List (List Char)} (h : rest ≠ []) :
    joinSegs (s :: rest) = s ++ '/' :: joinSegs rest := by
  cases rest with
  | nil => exact absurd rfl h
  | cons t r => rfl

lemma joinSegs_splitOnSlash : ∀ p : List Char, joinSegs (splitOnSlash p) = p
  | [] => rfl
  | c :: rest => by
    have ih := joinSegs_splitOnSlash rest
    by_cases hc : c = '/'
    · subst hc
      rw [splitOnSlash_slash]
      rcases hsp : splitOnSlash rest with _ | ⟨s, ss⟩
      · exact absurd hsp (splitOnSlash_ne_nil rest)
      · rw [hsp] at ih
        rw [joinSegs_cons _ (by simp), ih]
        rfl
    · rcases hsp : splitOnSlash rest with _ | ⟨s, ss⟩
      · exact absurd hsp (splitOnSlash_ne_nil rest)
      · rw [hsp] at ih
        rw [splitOnSlash_cons_of hc hsp]
        cases ss with
        | nil => simpa [joinSegs] using congrArg (c :: ·) ih
        | cons t ss' =>
          rw [joinSegs_cons _ (by simp)] at ih ⊢
          rw [← ih]
          rfl

lemma mem_splitOnSlash_no_slash : ∀ {p s : List Char}, s ∈ splitOnSlash p → '/' ∉ s := by
  intro p
  induction p with
  | nil =>
    intro s hs
    simp only [splitOnSlash, List.mem_singleton] at hs
    subst hs; simp
  | cons c rest ih =>
    intro s hs
    by_cases hc : c = '/'
    · subst hc
      rw [splitOnSlash_slash] at hs
      rcases List.mem_cons.mp hs with rfl | hmem
      · simp
      · exact ih hmem
    · rcases hsp : splitOnSlash rest with _ | ⟨t, ss⟩
      · exact absurd hsp (splitOnSlash_ne_nil rest)
      · rw [splitOnSlash_cons_of hc hsp] at hs
        rcases List.mem_cons.mp hs with rfl | hmem
        · intro hsl
          rcases List.mem_cons.mp hsl with h1 | h2
          · exact hc h1.symm
          · exact ih (hsp ▸ List.mem_cons_self t ss) h2
        · exact ih (hsp ▸ List.mem_cons_of_mem t hmem)

lemma splitOnSlash_append_slash :
    ∀ x r : List Char, splitOnSlash (x ++ '/' :: r) = splitOnSlash x ++ splitOnSlash r
  | [], r => by simp [splitOnSlash]
  | c :: x', r => by
    have ih := splitOnSlash_append_slash x' r
    by_cases hc : c = '/'
    · subst hc
      simp only [List.cons_append, splitOnSlash_slash, ih]
    · rcases hsp : splitOnSlash x' with _ | ⟨s, ss⟩
      · exact absurd hsp (splitOnSlash_ne_nil x')
      · rw [hsp] at ih
        rw [List.cons_append, splitOnSlash_cons_of hc ih, splitOnSlash_cons_of hc hsp]
        simp

lemma splitOnSlash_concat_slash (x : List Char) :
    splitOnSlash (x ++ ['/']) = splitOnSlash x ++ [[]] := by
  simpa [splitOnSlash] using splitOnSlash_append_slash x []

lemma splitOnSlash_of_no_slash : ∀ {s : List Char}, '/' ∉ s → splitOnSlash s = [s]
  | [], _ => rfl
  | c :: s', h => by
    have hc : c ≠ '/' := fun he => h (he ▸ List.mem_cons_self c s')
    have ih : splitOnSlash s' = [s'] :=
      splitOnSlash_of_no_slash (fun hm => h (List.mem_cons_of_mem c hm))
    rw [splitOnSlash_cons_of hc ih]

lemma splitOnSlash_seg_slash {s : List Char} (h : '/' ∉ s) (r : List Char) :
    splitOnSlash (s ++ '/' :: r) = s :: splitOnSlash r := by
  rw [splitOnSlash_append_slash, splitOnSlash_of_no_slash h]
  rfl

/-! ## The cleaning fold -/

lemma cleanStep_nil_seg (stack : List (List Char)) : cleanStep stack [] = stack := by
  simp [cleanStep]

lemma cleanStep_push {stack : List (List Char)} {seg : List Char}
    (h0 : seg ≠ []) (h1 : seg ≠ ['.']) (h2 : seg ≠ ['.', '.']) :
    cleanStep stack seg = stack ++ [seg] := by
  rw [cleanStep, if_neg (by tauto), if_neg h2]

lemma foldl_cleanStep_no_dots :
    ∀ (segs : List (List Char)) (acc : List (List Char)),
      (∀ s ∈ segs, s ≠ ['.'] ∧ s ≠ ['.', '.']) →
      segs.foldl cleanStep acc = acc ++ segs.filter (fun s => decide (s ≠ []))
  | [], acc, _ => by simp
  | seg :: segs', acc, h => by
    have hseg := h seg (List.mem_cons_self seg segs')
    have ih := foldl_cleanStep_no_dots segs' (cleanStep acc seg)
      (fun s hs => h s (List.mem_cons_of_mem seg hs))
    by_cases h0 : seg = []
    · subst h0
      rw [List.foldl_cons, ih, cleanStep_nil_seg]
      simp
    · rw [List.foldl_cons, ih, cleanStep_push h0 hseg.1 hseg.2]
      simp [List.filter_cons, h0]

lemma filter_ne_nil_eq_self {ss : List (List Char)} (h : ∀ s ∈ ss, s ≠ []) :
    ss.filter (fun s => decide (s ≠ [])) = ss :=
  List.filter_eq_self.mpr (fun a ha => by simpa using h a ha)

lemma foldl_cleanStep_good :
    ∀ (segs : List (List Char)) (acc : List (List Char)),
      (∀ s ∈ acc, goodSeg s) → (∀ s ∈ segs, '/' ∉ s) →
      ∀ s ∈ segs.foldl cleanStep acc, goodSeg s
  | [], _, hacc, _, s, hs => hacc s hs
  | seg :: segs', acc, hacc, hsl, s, hs => by
    have hstep : ∀ t ∈ cleanStep acc seg, goodSeg t := by
      intro t ht
      by_cases h0 : seg = [] ∨ seg = ['.']
      · rw [cleanStep, if_pos h0] at ht
        exact hacc t ht
      · by_cases h2 : seg = ['.', '.']
        · rw [cleanStep, if_neg h0, if_pos h2] at ht
          exact hacc t (List.dropLast_subset acc ht)
        · rw [cleanStep, if_neg h0, if_neg h2] at ht
          rcases List.mem_append.mp ht with h | h
          · exact hacc t h
          · have ht2 : t = seg := List.mem_singleton.mp h
            rw [ht2]
            exact ⟨fun h => h0 (Or.inl h), fun h => h0 (Or.inr h), h2,
              hsl seg (List.mem_cons_self seg segs')⟩
    exact foldl_cleanStep_good segs' (cleanStep acc seg) hstep
      (fun t ht => hsl t (List.mem_cons_of_mem seg ht)) s hs

/-! ## Rebuilding a cleaned path -/

lemma joinSegs_ne_nil {s : List Char} (rest : List (List Char)) (h : s ≠ []) :
    joinSegs (s :: rest) ≠ [] := by
  cases rest with
  | nil => exact h
  | cons t r => simp [joinSegs]

lemma splitOnSlash_join :
    ∀ stack : List (List Char), stack ≠ [] → (∀ s ∈ stack, '/' ∉ s) →
      splitOnSlash ('/' :: joinSegs stack) = [] :: stack
  | [], h, _ => absurd rfl h
  | [s], _, hsl => by
    have h1 : joinSegs [s] = s := rfl
    rw [splitOnSlash_slash, h1,
      splitOnSlash_of_no_slash (hsl s (List.mem_singleton.mpr rfl))]
  | s :: t :: rest, _, hsl => by
    have ih := splitOnSlash_join (t :: rest) (by simp)
      (fun u hu => hsl u (List.mem_cons_of_mem s hu))
    rw [splitOnSlash_slash] at ih
    simp only [List.cons.injEq, true_and] at ih
    rw [joinSegs_cons s (by simp), splitOnSlash_slash,
      splitOnSlash_seg_slash (hsl s (List.mem_cons_self s (t :: rest))), ih]

/-! ## Last-character lemmas -/

lemma ends_with_slash_concat (x : List Char) : ends_with_slash (x ++ ['/']) = true := by
  simp [ends_with_slash, List.getLast?_concat]

lemma ends_with_true_of_rep (q : List Char) {p : List Char} (h : p = q ++ ['/']) :
    ends_with_slash p = true := by
  rw [h]; exact ends_with_slash_concat q

lemma ends_with_false_of_rep (q : List Char) {b : Char} (hb : b ≠ '/') {p : List Char}
    (h : p = q ++ [b]) : ends_with_slash p = false := by
  rw [h]
  simp [ends_with_slash, List.getLast?_concat, hb]

lemma joinSegs_concat :
    ∀ (ss : List (List Char)) (s : List Char), ss ≠ [] →
      joinSegs (ss ++ [s]) = joinSegs ss ++ '/' :: s
  | [], _, h => absurd rfl h
  | [x], s, _ => rfl
  | x :: y :: rest, s, _ => by
    have ih := joinSegs_concat (y :: rest) s (by simp)
    rw [List.cons_append, joinSegs_cons x (by simp), joinSegs_cons x (by simp), ih,
      List.append_assoc]
    rfl

lemma ends_with_slash_join (stack : List (List Char)) (hne : stack ≠ [])
    (hg : ∀ s ∈ stack, s ≠ [] ∧ '/' ∉ s) :
    ends_with_slash ('/' :: joinSegs stack) = false := by
  rcases List.eq_nil_or_concat stack with rfl | ⟨stack', sl, hst⟩
  · exact absurd rfl hne
  rw [List.concat_eq_append] at hst
  subst hst
  have hsl := hg sl (List.mem_append_right stack' (List.mem_singleton.mpr rfl))
  rcases List.eq_nil_or_concat sl with hnil | ⟨sl', b, hslb⟩
  · exact absurd hnil hsl.1
  rw [List.concat_eq_append] at hslb
  subst hslb
  have hb : b ≠ '/' := fun h =>
    hsl.2 (h ▸ List.mem_append_right sl' (List.mem_singleton.mpr rfl))
  cases stack' with
  | nil => exact ends_with_false_of_rep ('/' :: sl') hb (by simp [joinSegs])
  | cons x rest =>
    refine ends_with_false_of_rep ('/' :: (joinSegs (x :: rest) ++ '/' :: sl')) hb ?_
    rw [joinSegs_concat _ _ (by simp)]
    simp

/-! ## First-segment helpers and the fast-path segment structure -/

lemma firstSeg_head {p s : List Char} {ss : List (List Char)}
    (hsp : splitOnSlash p = s :: ss) : s = [] ∨ s.head? = p.head? := by
  cases p with
  | nil =>
    rw [splitOnSlash] at hsp
    injection hsp with h1 _
    exact Or.inl h1.symm
  | cons d p'' =>
    by_cases hd : d = '/'
    · subst hd
      rw [splitOnSlash_slash] at hsp
      injection hsp with h1 _
      exact Or.inl h1.symm
    · rcases hsp2 : splitOnSlash p'' with _ | ⟨u, uu⟩
      · exact absurd hsp2 (splitOnSlash_ne_nil p'')
      · rw [splitOnSlash_cons_of hd hsp2] at hsp
        injection hsp with h1 _
        right
        rw [← h1]
        simp

lemma firstSeg_nil {p : List Char} {ss : List (List Char)}
    (hsp : splitOnSlash p = [] :: ss) : p = [] ∨ p.head? = some '/' := by
  cases p with
  | nil => exact Or.inl rfl
  | cons d p'' =>
    by_cases hd : d = '/'
    · subst hd; exact Or.inr rfl
    · rcases hsp2 : splitOnSlash p'' with _ | ⟨u, uu⟩
      · exact absurd hsp2 (splitOnSlash_ne_nil p'')
      · rw [splitOnSlash_cons_of hd hsp2] at hsp
        injection hsp with h1 _
        exact absurd h1 (by simp)

lemma tail_head_ne :
    ∀ (p : List Char) (c : Char), containsSub ['/', c] p = false →
      ∀ s ∈ (splitOnSlash p).tail, s.head? ≠ some c
  | [], _, _ => by simp [splitOnSlash]
  | a :: p', c, h => by
    have ih := tail_head_ne p' c (containsSub_tail h)
    by_cases ha : a = '/'
    · subst ha
      rw [splitOnSlash_slash, List.tail_cons]
      intro s hs
      rcases hsp : splitOnSlash p' with _ | ⟨t, ss⟩
      · exact absurd hsp (splitOnSlash_ne_nil p')
      rw [hsp] at hs
      rcases List.mem_cons.mp hs with rfl | hmem
      · rcases firstSeg_head hsp with rfl | hh
        · simp
        · rw [hh]
          simp only [containsSub, Bool.or_eq_false_iff] at h
          exact begins_slash_pair h.1
      · rw [hsp] at ih
        exact ih s (by simpa using hmem)
    · rcases hsp : splitOnSlash p' with _ | ⟨t, ss⟩
      · exact absurd hsp (splitOnSlash_ne_nil p')
      rw [splitOnSlash_cons_of ha hsp, List.tail_cons]
      intro s hs
      rw [hsp] at ih
      exact ih s (by simpa using hs)

lemma nonEmptyButLast_tail :
    ∀ p : List Char, containsSub ['/', '/'] p = false →
      nonEmptyButLast (splitOnSlash p).tail
  | [], _ => by simp [splitOnSlash, nonEmptyButLast]
  | a :: p', h => by
    have ih := nonEmptyButLast_tail p' (containsSub_tail h)
    by_cases ha : a = '/'
    · subst ha
      rw [splitOnSlash_slash, List.tail_cons]
      rcases hsp : splitOnSlash p' with _ | ⟨s, ss⟩
      · exact absurd hsp (splitOnSlash_ne_nil p')
      cases ss with
      | nil => exact trivial
      | cons t ss' =>
        rw [hsp, List.tail_cons] at ih
        refine ⟨?_, ih⟩
        intro hs0
        subst hs0
        rcases firstSeg_nil hsp with rfl | hh
        · rw [splitOnSlash] at hsp
          injection hsp with _ h2
          exact absurd h2.symm (by simp)
        · exact head_ne_slash_of_noDouble h hh
    · rcases hsp : splitOnSlash p' with _ | ⟨t, ss⟩
      · exact absurd hsp (splitOnSlash_ne_nil p')
      rw [splitOnSlash_cons_of ha hsp, List.tail_cons]
      rw [hsp, List.tail_cons] at ih
      exact ih

lemma nonEmptyButLast_front :
    ∀ (ss' : List (List Char)) (x : List Char), nonEmptyButLast (ss' ++ [x]) →
      ∀ s ∈ ss', s ≠ []
  | [], _, _, s, hs => absurd hs (List.not_mem_nil s)
  | a :: rest, x, h, s, hs => by
    have h' : a ≠ [] ∧ nonEmptyButLast (rest ++ [x]) := by
      cases rest with
      | nil => exact ⟨h.1, trivial⟩
      | cons b rest' => exact ⟨h.1, h.2⟩
    rcases List.mem_cons.mp hs with rfl | hmem
    · exact h'.1
    · exact nonEmptyButLast_front rest x h'.2 s hmem

lemma nonEmptyButLast_all {ss' : List (List Char)} {sl : List Char}
    (h : nonEmptyButLast (ss' ++ [sl])) (hsl : sl ≠ []) :
    ∀ s ∈ ss' ++ [sl], s ≠ [] := by
  intro s hs
  rcases List.mem_append.mp hs with h1 | h2
  · exact nonEmptyButLast_front ss' sl h s h1
  · rw [List.mem_singleton.mp h2]
    exact hsl

/-! ## Unfolding the policy -/

lemma canonical_eq (p : List Char) :
    canonical p =
      if clean p ≠ ['/'] then
        (if ends_with_slash p || !has_ext (clean p) then clean p ++ ['/'] else clean p)
      else clean p := rfl

/-- On a path satisfying the three fast-path conditions, the slow path is a
no-op: cleaning plus the trailing-slash policy reproduces the input. -/
lemma canonical_of_fast {p : List Char} (hhead : p.head? = some '/')
    (hdot : containsSub ['/', '.'] p = false)
    (hdbl : containsSub ['/', '/'] p = false)
    (hxor : (has_ext p ^^ ends_with_slash p) = true) :
    canonical p = p := by
  cases p with
  | nil => simp at hhead
  | cons a q =>
  have ha : a = '/' := by simpa using hhead
  subst ha
  have hdotseg : ∀ s ∈ splitOnSlash q, s.head? ≠ some '.' := by
    have h := tail_head_ne ('/' :: q) '.' hdot
    rw [splitOnSlash_slash, List.tail_cons] at h
    exact h
  have hnel : nonEmptyButLast (splitOnSlash q) := by
    have h := nonEmptyButLast_tail ('/' :: q) hdbl
    rw [splitOnSlash_slash, List.tail_cons] at h
    exact h
  have hnosl : ∀ s ∈ splitOnSlash q, '/' ∉ s := by
    intro s hs
    have hmem : s ∈ splitOnSlash ('/' :: q) := by
      rw [splitOnSlash_slash]
      exact List.mem_cons_of_mem _ hs
    exact mem_splitOnSlash_no_slash hmem
  have hnodots : ∀ s ∈ splitOnSlash q, s ≠ ['.'] ∧ s ≠ ['.', '.'] := by
    intro s hs
    constructor
    · rintro rfl
      exact hdotseg _ hs rfl
    · rintro rfl
      exact hdotseg _ hs rfl
  have hstack : (splitOnSlash ('/' :: q)).foldl cleanStep [] =
      (splitOnSlash q).filter (fun s => decide (s ≠ [])) := by
    rw [splitOnSlash_slash, List.foldl_cons, cleanStep_nil_seg,
      foldl_cleanStep_no_dots _ _ hnodots]
    simp
  rcases List.eq_nil_or_concat (splitOnSlash q) with hnil | ⟨ss', sl, hss⟩
  · exact absurd hnil (splitOnSlash_ne_nil q)
  rw [List.concat_eq_append] at hss
  have hq : joinSegs (splitOnSlash q) = q := by
    have h := joinSegs_splitOnSlash ('/' :: q)
    rw [splitOnSlash_slash,
      joinSegs_cons _ (splitOnSlash_ne_nil q), List.nil_append] at h
    injection h
  by_cases hsl : sl = []
  · subst hsl
    have hall' : ∀ s ∈ ss', s ≠ [] := nonEmptyButLast_front ss' [] (hss ▸ hnel)
    have hfilter : (splitOnSlash q).filter (fun s => decide (s ≠ [])) = ss' := by
      rw [hss, List.filter_append, filter_ne_nil_eq_self hall']
      simp
    cases ss' with
    | nil =>
      have hq0 : q = [] := by rw [← hq, hss]; rfl
      subst hq0
      decide
    | cons a0 ss'' =>
      have hqrep : q = joinSegs (a0 :: ss'') ++ ['/'] := by
        rw [← hq, hss, joinSegs_concat _ _ (by simp)]
      have hclean : clean ('/' :: q) = '/' :: joinSegs (a0 :: ss'') := by
        rw [clean, hstack, hfilter]
      have hjne : joinSegs (a0 :: ss'') ≠ [] :=
        joinSegs_ne_nil ss'' (hall' a0 (List.mem_cons_self a0 ss''))
      have hcne : clean ('/' :: q) ≠ ['/'] := by
        rw [hclean]
        intro hcontra
        injection hcontra with _ h2
        exact hjne h2
      have ht : ends_with_slash ('/' :: q) = true := by
        refine ends_with_true_of_rep ('/' :: joinSegs (a0 :: ss'')) ?_
        rw [hqrep]
        rfl
      rw [canonical_eq, if_pos hcne, ht]
      simp only [Bool.true_or, if_pos]
      rw [hclean, hqrep]
      rfl
  · have hall : ∀ s ∈ splitOnSlash q, s ≠ [] := by
      rw [hss]
      exact nonEmptyButLast_all (hss ▸ hnel) hsl
    have hfilter : (splitOnSlash q).filter (fun s => decide (s ≠ [])) = splitOnSlash q :=
      filter_ne_nil_eq_self hall
    have hclean : clean ('/' :: q) = '/' :: q := by
      rw [clean, hstack, hfilter, hq]
    have hgood : ∀ s ∈ splitOnSlash q, s ≠ [] ∧ '/' ∉ s :=
      fun s hs => ⟨hall s hs, hnosl s hs⟩
    have ht : ends_with_slash ('/' :: q) = false := by
      have h := ends_with_slash_join (splitOnSlash q) (splitOnSlash_ne_nil q) hgood
      rw [hq] at h
      exact h
    have hhe : has_ext ('/' :: q) = true := by
      rw [ht, Bool.xor_false] at hxor
      exact hxor
    have hcne : clean ('/' :: q) ≠ ['/'] := by
      rw [hclean]
      intro hcontra
      injection hcontra with _ h2
      rw [h2] at hall
      exact hall [] (by rw [splitOnSlash]; exact List.mem_singleton.mpr rfl) rfl
    rw [canonical_eq, if_pos hcne, ht, hclean, hhe]
    simp

/-- C1: fast-path/slow-path equivalence — when the three fast-path
conditions hold for a path (which, per the spec's Path data model, always
begins with `/`), running the slow path instead reproduces the original
path exactly, so the outcome is `Unchanged` either way. -/
theorem fast_slow_equiv (p : List Char) (hhead : p.head? = some '/')
    (hdot : containsSub ['/', '.'] p = false)
    (hdbl : containsSub ['/', '/'] p = false)
    (hxor : (has_ext p ^^ ends_with_slash p) = true) :
    canonical p = p ∧ handle p = Outcome.unchanged := by
  refine ⟨canonical_of_fast hhead hdot hdbl hxor, ?_⟩
  have hf : fastCond p = true := by
    rw [fastCond, hdot, hdbl, hxor]
    rfl
  simp only [handle, if_pos hf]

/-- Witness for C1 at the concrete fast-path-eligible input `/a/b/`. -/
theorem fast_slow_equiv_witness :
    (str "/a/b/").head? = some '/' ∧ canonical (str "/a/b/") = str "/a/b/" ∧
      handle (str "/a/b/") = Outcome.unchanged :=
  ⟨by decide, fast_slow_equiv (str "/a/b/") (by decide) (by decide) (by decide) (by decide)⟩

/-! ## Idempotence of the slow path -/

lemma stack_good (p : List Char) :
    ∀ s ∈ (splitOnSlash p).foldl cleanStep [], goodSeg s :=
  foldl_cleanStep_good (splitOnSlash p) [] (by simp)
    (fun _ hs => mem_splitOnSlash_no_slash hs)

lemma filter_cons_nil (l : List (List Char)) :
    ([] :: l).filter (fun s => decide (s ≠ [])) = l.filter (fun s => decide (s ≠ [])) := by
  simp

lemma filter_concat_nil (l : List (List Char)) :
    (l ++ [[]]).filter (fun s => decide (s ≠ [])) = l.filter (fun s => decide (s ≠ [])) := by
  rw [List.filter_append]
  simp

/-- The clean-plus-policy pipeline is a fixed point of itself: applying it
to its own output changes nothing. -/
lemma canonical_idem (p : List Char) : canonical (canonical p) = canonical p := by
  have hgood := stack_good p
  rcases hst : (splitOnSlash p).foldl cleanStep [] with _ | ⟨s0, st'⟩
  · have hclean : clean p = ['/'] := by rw [clean, hst]; rfl
    have hcp : canonical p = ['/'] := by
      rw [canonical_eq, if_neg (by rw [hclean]; simp), hclean]
    rw [hcp]
    decide
  · rw [hst] at hgood
    have hne : ∀ s ∈ s0 :: st', s ≠ [] := fun s hs => (hgood s hs).1
    have hnosl : ∀ s ∈ s0 :: st', '/' ∉ s := fun s hs => (hgood s hs).2.2.2
    have hclean : clean p = '/' :: joinSegs (s0 :: st') := by rw [clean, hst]
    have hjne : joinSegs (s0 :: st') ≠ [] := joinSegs_ne_nil st' (hne s0 (by simp))
    have hcne : clean p ≠ ['/'] := by
      rw [hclean]
      intro hc
      injection hc with _ h2
      exact hjne h2
    have hsplit : splitOnSlash (clean p) = [] :: s0 :: st' := by
      rw [hclean]
      exact splitOnSlash_join _ (by simp) hnosl
    have hnodots : ∀ s ∈ [] :: s0 :: st', s ≠ ['.'] ∧ s ≠ ['.', '.'] := by
      intro s hs
      rcases List.mem_cons.mp hs with rfl | hmem
      · exact ⟨by simp, by simp⟩
      · exact ⟨(hgood s hmem).2.1, (hgood s hmem).2.2.1⟩
    have hrestack : (splitOnSlash (clean p)).foldl cleanStep [] = s0 :: st' := by
      rw [hsplit, foldl_cleanStep_no_dots _ _ hnodots, List.nil_append,
        filter_cons_nil, filter_ne_nil_eq_self hne]
    have hcc : clean (clean p) = clean p := by
      have h1 : clean (clean p) =
          '/' :: joinSegs ((splitOnSlash (clean p)).foldl cleanStep []) := rfl
      rw [h1, hrestack, ← hclean]
    have htc : ends_with_slash (clean p) = false := by
      rw [hclean]
      exact ends_with_slash_join _ (by simp) (fun s hs => ⟨hne s hs, hnosl s hs⟩)
    by_cases hcond : (ends_with_slash p || !has_ext (clean p)) = true
    · have hcp : canonical p = clean p ++ ['/'] := by
        rw [canonical_eq, if_pos hcne, if_pos hcond]
      have hnodots2 : ∀ s ∈ ([] :: s0 :: st') ++ [[]], s ≠ ['.'] ∧ s ≠ ['.', '.'] := by
        intro s hs
        rcases List.mem_append.mp hs with h1 | h2
        · exact hnodots s h1
        · rw [List.mem_singleton.mp h2]
          exact ⟨by simp, by simp⟩
      have hsplit2 : splitOnSlash (clean p ++ ['/']) = ([] :: s0 :: st') ++ [[]] := by
        rw [splitOnSlash_concat_slash, hsplit]
      have hrestack2 : (splitOnSlash (clean p ++ ['/'])).foldl cleanStep [] = s0 :: st' := by
        rw [hsplit2, foldl_cleanStep_no_dots _ _ hnodots2, List.nil_append,
          filter_concat_nil, filter_cons_nil, filter_ne_nil_eq_self hne]
      have hcc2 : clean (clean p ++ ['/']) = clean p := by
        have h1 : clean (clean p ++ ['/']) =
            '/' :: joinSegs ((splitOnSlash (clean p ++ ['/'])).foldl cleanStep []) := rfl
        rw [h1, hrestack2, ← hclean]
      rw [hcp, canonical_eq, hcc2, if_pos hcne, ends_with_slash_concat (clean p)]
      simp
    · have hcond' : ends_with_slash p = false ∧ has_ext (clean p) = true := by
        have h := Bool.eq_false_iff.mpr hcond
        rcases Bool.or_eq_false_iff.mp h with ⟨h1, h2⟩
        exact ⟨h1, by simpa using h2⟩
      have hcp : canonical p = clean p := by
        rw [canonical_eq, if_pos hcne, if_neg hcond]
      rw [hcp, canonical_eq, hcc, if_pos hcne, htc, hcond'.2]
      simp

/-- C2: idempotence — for any input path starting with `/`, running the
middleware on the canonical (cleaned, policy-applied) form of the path
passes it through `Unchanged`; the pipeline's output is a fixed point. -/
theorem canonical_fixed (p : List Char) (hhead : p.head? = some '/') :
    handle (canonical p) = Outcome.unchanged := by
  by_cases hf : fastCond (canonical p) = true
  · simp only [handle, if_pos hf]
  · simp only [handle, if_neg hf]
    rw [if_neg (fun hne => hne (canonical_idem p))]

/-- Witness for C2 at the concrete input `//a//b`. -/
theorem canonical_fixed_witness :
    (str "//a//b").head? = some '/' ∧ handle (canonical (str "//a//b")) = Outcome.unchanged :=
  ⟨by decide, canonical_fixed (str "//a//b") (by decide)⟩

/-- C3: redirect decision — for a path starting with `/` (the spec's Path
domain), the middleware returns `Unchanged` exactly when the cleaned,
policy-applied path equals the original, and returns `Redirect q` exactly
when `q` is the cleaned, policy-applied path and differs from the
original; no false redirect and no false pass-through. -/
theorem redirect_decision (p : List Char) (hhead : p.head? = some '/') :
    (handle p = Outcome.unchanged ↔ canonical p = p) ∧
      (∀ q, handle p = Outcome.redirect q ↔ (canonical p = q ∧ q ≠ p)) := by
  by_cases hf : fastCond p = true
  · have h3 : containsSub ['/', '.'] p = false ∧ containsSub ['/', '/'] p = false ∧
        (has_ext p ^^ ends_with_slash p) = true := by
      have hf' := hf
      rw [fastCond, Bool.and_eq_true, Bool.and_eq_true, Bool.not_eq_true',
        Bool.not_eq_true'] at hf'
      exact ⟨hf'.1.1, hf'.1.2, hf'.2⟩
    have hc : canonical p = p := canonical_of_fast hhead h3.1 h3.2.1 h3.2.2
    have hu : handle p = Outcome.unchanged := by simp only [handle, if_pos hf]
    refine ⟨⟨fun _ => hc, fun _ => hu⟩, fun q => ⟨fun h => ?_, fun h12 => ?_⟩⟩
    · rw [hu] at h
      exact absurd h (by simp)
    · exact absurd (hc.symm.trans h12.1).symm h12.2
  · have hh : handle p =
        if canonical p ≠ p then Outcome.redirect (canonical p) else Outcome.unchanged := by
      simp only [handle, if_neg hf]
    by_cases hcp : canonical p = p
    · rw [hh, if_neg (fun hne => hne hcp)]
      refine ⟨⟨fun _ => hcp, fun _ => rfl⟩, fun q => ⟨fun h => absurd h (by simp),
        fun h12 => absurd (hcp.symm.trans h12.1).symm h12.2⟩⟩
    · rw [hh, if_pos hcp]
      refine ⟨⟨fun h => absurd h (by simp), fun h => absurd h hcp⟩,
        fun q => ⟨fun h => ?_, fun h12 => ?_⟩⟩
      · injection h with h1
        exact ⟨h1, h1 ▸ hcp⟩
      · rw [h12.1]

/-- Witness for C3 at the concrete input `/m.` (a redirecting path). -/
theorem redirect_decision_witness :
    (str "/m.").head? = some '/' ∧
      ((handle (str "/m.") = Outcome.unchanged ↔ canonical (str "/m.") = str "/m.") ∧
        (∀ q, handle (str "/m.") = Outcome.redirect q ↔
          (canonical (str "/m.") = q ∧ q ≠ str "/m."))) :=
  ⟨by decide, redirect_decision (str "/m.") (by decide)⟩

/-! ## Extension flag on trailing-slash paths -/

/-- A path that ends with `/` never has an extension: the substring after
its last `.` (if any) contains that final `/`. -/
lemma has_ext_trailing {q : List Char} (h : ends_with_slash q = true) :
    has_ext q = false := by
  have h' : q.getLast? = some '/' := by simpa [ends_with_slash] using h
  have hrev : q.reverse.head? = some '/' := by rw [List.head?_reverse, h']
  rcases hr : q.reverse with _ | ⟨c, z⟩
  · rw [hr] at hrev
    simp at hrev
  · rw [hr] at hrev
    have hc : c = '/' := by simpa using hrev
    subst hc
    simp only [has_ext]
    rw [hr]
    by_cases hd : '.' ∈ '/' :: z
    · rw [if_pos hd]
      have htw : List.takeWhile (fun c => decide (c ≠ '.')) ('/' :: z) =
          '/' :: List.takeWhile (fun c => decide (c ≠ '.')) z := by
        simp [List.takeWhile_cons]
      rw [htw]
      simp
    · rw [if_neg hd]

/-- C4: trailing-slash policy — after cleaning, a cleaned path equal to `/`
is left alone; otherwise a single `/` is appended exactly when the
original path ended with `/` or the cleaned path has no extension, and the
cleaned path is kept as-is otherwise. -/
theorem trailing_slash_policy (p : List Char) :
    (clean p = ['/'] → canonical p = ['/']) ∧
      (clean p ≠ ['/'] → (ends_with_slash p = true ∨ has_ext (clean p) = false) →
        canonical p = clean p ++ ['/']) ∧
      (clean p ≠ ['/'] → ends_with_slash p = false → has_ext (clean p) = true →
        canonical p = clean p) := by
  refine ⟨fun h => ?_, fun h hor => ?_, fun h h1 h2 => ?_⟩
  · rw [canonical_eq, if_neg (fun hne => hne h), h]
  · have hc : (ends_with_slash p || !has_ext (clean p)) = true := by
      rcases hor with h1 | h2
      · rw [h1]
        simp
      · rw [h2]
        simp
    rw [canonical_eq, if_pos h, if_pos hc]
  · have hc : (ends_with_slash p || !has_ext (clean p)) = false := by
      rw [h1, h2]
      simp
    rw [canonical_eq, if_pos h, if_neg (by rw [hc]; simp)]

/-- Witness for C4 at the concrete input `//a//b//` (append branch). -/
theorem trailing_slash_policy_witness :
    clean (str "//a//b//") ≠ ['/'] ∧ ends_with_slash (str "//a//b//") = true ∧
      canonical (str "//a//b//") = clean (str "//a//b//") ++ ['/'] :=
  ⟨by decide, by decide,
    (trailing_slash_policy (str "//a//b//")).2.1 (by decide) (Or.inl (by decide))⟩

/-- C5: canonical-form trailing-slash invariant — the output of the
clean-plus-policy pipeline ends with `/` exactly when it has no extension
(the root `/` included), so trailing-slash presence in the output is
determined solely by the extension flag of the output, and no non-root
output both ends in `/` and carries an extension in its final segment. -/
theorem canonical_trailing (p : List Char) :
    ends_with_slash (canonical p) = !has_ext (canonical p) := by
  have hgood := stack_good p
  rcases hst : (splitOnSlash p).foldl cleanStep [] with _ | ⟨s0, st'⟩
  · have hclean : clean p = ['/'] := by rw [clean, hst]; rfl
    have hcp : canonical p = ['/'] := by
      rw [canonical_eq, if_neg (fun hne => hne hclean), hclean]
    rw [hcp]
    decide
  · rw [hst] at hgood
    have hne : ∀ s ∈ s0 :: st', s ≠ [] := fun s hs => (hgood s hs).1
    have hnosl : ∀ s ∈ s0 :: st', '/' ∉ s := fun s hs => (hgood s hs).2.2.2
    have hclean : clean p = '/' :: joinSegs (s0 :: st') := by rw [clean, hst]
    have hjne : joinSegs (s0 :: st') ≠ [] := joinSegs_ne_nil st' (hne s0 (by simp))
    have hcne : clean p ≠ ['/'] := by
      rw [hclean]
      intro hc
      injection hc with _ h2
      exact hjne h2
    have htc : ends_with_slash (clean p) = false := by
      rw [hclean]
      exact ends_with_slash_join _ (by simp) (fun s hs => ⟨hne s hs, hnosl s hs⟩)
    by_cases hcond : (ends_with_slash p || !has_ext (clean p)) = true
    · have hcp : canonical p = clean p ++ ['/'] := by
        rw [canonical_eq, if_pos hcne, if_pos hcond]
      rw [hcp, ends_with_slash_concat, has_ext_trailing (ends_with_slash_concat (clean p))]
      rfl
    · have hcond' : has_ext (clean p) = true := by
        have h := Bool.eq_false_iff.mpr hcond
        rcases Bool.or_eq_false_iff.mp h with ⟨_, h2⟩
        simpa using h2
      have hcp : canonical p = clean p := by
        rw [canonical_eq, if_pos hcne, if_neg hcond]
      rw [hcp, htc, hcond']
      rfl

/-- C10: a path ending in `/` never has an extension, so a trailing-slash
path with no `//` and no `/.` substring — including file-lookalikes such
as `/m.js/` — satisfies the fast path and passes through `Unchanged`. -/
theorem trailing_slash_no_ext (p : List Char) :
    (ends_with_slash p = true → has_ext p = false) ∧
      (ends_with_slash p = true → containsSub ['/', '/'] p = false →
        containsSub ['/', '.'] p = false → handle p = Outcome.unchanged) := by
  refine ⟨fun h => has_ext_trailing h, fun h h2 h3 => ?_⟩
  have hf : fastCond p = true := by
    rw [fastCond, h2, h3, has_ext_trailing h, h]
    rfl
  simp only [handle, if_pos hf]

/-- Witness for C10 at the concrete input `/m.js/`. -/
theorem trailing_slash_no_ext_witness :
    ends_with_slash (str "/m.js/") = true ∧ has_ext (str "/m.js/") = false ∧
      handle (str "/m.js/") = Outcome.unchanged :=
  ⟨by decide, (trailing_slash_no_ext (str "/m.js/")).1 (by decide),
    (trailing_slash_no_ext (str "/m.js/")).2 (by decide) (by decide) (by decide)⟩

/-! ## Characterizing the extension flag -/

lemma dropWhile_head_not (pr : Char → Bool) :
    ∀ (l : List Char) {c : Char} {r : List Char}, l.dropWhile pr = c :: r → pr c = false
  | [], _, _, h => by simp [List.dropWhile] at h
  | a :: l', c, r, h => by
    cases ha : pr a
    · rw [List.dropWhile_cons, if_neg (by simp [ha])] at h
      injection h with h1 _
      rw [← h1]
      exact ha
    · rw [List.dropWhile_cons, if_pos (by simp [ha])] at h
      exact dropWhile_head_not pr l' h

lemma takeWhile_middle (pr : Char → Bool) :
    ∀ (l₁ : List Char) (c : Char) (l₂ : List Char),
      (∀ x ∈ l₁, pr x = true) → pr c = false →
      List.takeWhile pr (l₁ ++ c :: l₂) = l₁
  | [], c, l₂, _, hc => by simp [List.takeWhile_cons, hc]
  | a :: l₁', c, l₂, h, hc => by
    have ha := h a (List.mem_cons_self a l₁')
    have ih := takeWhile_middle pr l₁' c l₂ (fun x hx => h x (List.mem_cons_of_mem a hx)) hc
    rw [List.cons_append]
    simp [List.takeWhile_cons, ha, ih]

/-- C6: `has_ext` correctness — the flag is true exactly when the path
decomposes as `a ++ "." ++ b` with the suffix `b` after the last dot
non-empty, dot-free (so the dot shown is the last one) and slash-free; in
particular a path with no `.` at all has no extension. -/
theorem has_ext_spec (p : List Char) :
    (has_ext p = true ↔ ∃ a b, p = a ++ '.' :: b ∧ b ≠ [] ∧ '.' ∉ b ∧ '/' ∉ b) ∧
      ('.' ∉ p → has_ext p = false) := by
  have main : has_ext p = true ↔
      ∃ a b, p = a ++ '.' :: b ∧ b ≠ [] ∧ '.' ∉ b ∧ '/' ∉ b := by
    constructor
    · intro h
      by_cases hd : '.' ∈ p.reverse
      case neg =>
        simp only [has_ext] at h
        rw [if_neg hd] at h
        exact absurd h (by simp)
      case pos =>
        simp only [has_ext] at h
        rw [if_pos hd, Bool.and_eq_true] at h
        rcases h with ⟨h1, h2⟩
        have hsub_ne : p.reverse.takeWhile (fun c => decide (c ≠ '.')) ≠ [] := by
          simpa using h1
        have hsub_sl : '/' ∉ p.reverse.takeWhile (fun c => decide (c ≠ '.')) := by
          simpa using h2
        have hdw_ne : p.reverse.dropWhile (fun c => decide (c ≠ '.')) ≠ [] := by
          intro hnil
          have hsplitw := List.takeWhile_append_dropWhile
            (fun c => decide (c ≠ '.')) p.reverse
          rw [hnil, List.append_nil] at hsplitw
          rw [← hsplitw] at hd
          have := List.mem_takeWhile_imp hd
          simp at this
        rcases hcr : p.reverse.dropWhile (fun c => decide (c ≠ '.')) with _ | ⟨c, r⟩
        · exact absurd hcr hdw_ne
        have hc : c = '.' := by
          have h5 := dropWhile_head_not (fun c => decide (c ≠ '.')) p.reverse hcr
          simpa using h5
        subst hc
        have hrev_eq : p.reverse =
            p.reverse.takeWhile (fun c => decide (c ≠ '.')) ++ '.' :: r := by
          conv_lhs => rw [← List.takeWhile_append_dropWhile
            (fun c => decide (c ≠ '.')) p.reverse]
          rw [hcr]
        refine ⟨r.reverse,
          (p.reverse.takeWhile (fun c => decide (c ≠ '.'))).reverse, ?_, ?_, ?_, ?_⟩
        · conv_lhs => rw [← List.reverse_reverse p, hrev_eq]
          simp
        · simpa using hsub_ne
        · intro hmem
          rw [List.mem_reverse] at hmem
          have := List.mem_takeWhile_imp hmem
          simp at this
        · intro hmem
          rw [List.mem_reverse] at hmem
          exact hsub_sl hmem
    · rintro ⟨a, b, rfl, hb, hdb, hsb⟩
      have hrev : (a ++ '.' :: b).reverse = b.reverse ++ '.' :: a.reverse := by simp
      have htw : (b.reverse ++ '.' :: a.reverse).takeWhile
          (fun c => decide (c ≠ '.')) = b.reverse := by
        refine takeWhile_middle _ b.reverse '.' a.reverse (fun x hx => ?_) (by simp)
        rw [List.mem_reverse] at hx
        have hxne : x ≠ '.' := fun he => hdb (he ▸ hx)
        simpa using hxne
      have hd : '.' ∈ (a ++ '.' :: b).reverse := by
        rw [hrev]
        exact List.mem_append_right _ (List.mem_cons_self _ _)
      simp only [has_ext]
      rw [if_pos hd, hrev, htw]
      simp [hb, hsb]
  refine ⟨main, fun hnd => ?_⟩
  cases hx : has_ext p
  · rfl
  · exfalso
    rcases main.mp hx with ⟨a, b, rfl, _, _, _⟩
    exact hnd (List.mem_append_right a (List.mem_cons_self _ _))

/-- Witness for C6: `/m.js` decomposes with suffix `js` after its last dot,
and the dotless `/ab` has no extension. -/
theorem has_ext_spec_witness :
    has_ext (str "/m.js") = true ∧ '.' ∉ str "/ab" ∧ has_ext (str "/ab") = false :=
  ⟨(has_ext_spec (str "/m.js")).1.mpr
      ⟨str "/m", str "js", by decide, by decide, by decide, by decide⟩,
    by decide, (has_ext_spec (str "/ab")).2 (by decide)⟩

/-! ## Shape of the middleware output -/

lemma fastCond_split {p : List Char} (hf : fastCond p = true) :
    containsSub ['/', '.'] p = false ∧ containsSub ['/', '/'] p = false ∧
      (has_ext p ^^ ends_with_slash p) = true := by
  rw [fastCond, Bool.and_eq_true, Bool.and_eq_true, Bool.not_eq_true',
    Bool.not_eq_true'] at hf
  exact ⟨hf.1.1, hf.1.2, hf.2⟩

lemma outPath_cases (p : List Char) :
    (fastCond p = true ∧ outPath p = p) ∨ outPath p = canonical p := by
  by_cases hf : fastCond p = true
  · left
    refine ⟨hf, ?_⟩
    have hh : handle p = Outcome.unchanged := by simp only [handle, if_pos hf]
    simp only [outPath]
    rw [hh]
  · right
    by_cases hcp : canonical p ≠ p
    · have hh : handle p = Outcome.redirect (canonical p) := by
        simp only [handle, if_neg hf]
        rw [if_pos hcp]
      simp only [outPath]
      rw [hh]
    · have hh : handle p = Outcome.unchanged := by
        simp only [handle, if_neg hf]
        rw [if_neg hcp]
      simp only [outPath]
      rw [hh]
      exact (not_not.mp hcp).symm

lemma canonical_head (p : List Char) : (canonical p).head? = some '/' := by
  have hc : clean p = '/' :: joinSegs ((splitOnSlash p).foldl cleanStep []) := rfl
  rw [canonical_eq]
  split_ifs <;> rw [hc] <;> simp

lemma canonical_no_dotdot (p : List Char) :
    ∀ s ∈ splitOnSlash (canonical p), s ≠ ['.', '.'] := by
  have hgood := stack_good p
  rcases hst : (splitOnSlash p).foldl cleanStep [] with _ | ⟨s0, st'⟩
  · have hclean : clean p = ['/'] := by rw [clean, hst]; rfl
    have hcp : canonical p = ['/'] := by
      rw [canonical_eq, if_neg (fun hne => hne hclean), hclean]
    rw [hcp]
    decide
  · rw [hst] at hgood
    have hne : ∀ s ∈ s0 :: st', s ≠ [] := fun s hs => (hgood s hs).1
    have hnosl : ∀ s ∈ s0 :: st', '/' ∉ s := fun s hs => (hgood s hs).2.2.2
    have hclean : clean p = '/' :: joinSegs (s0 :: st') := by rw [clean, hst]
    have hjne : joinSegs (s0 :: st') ≠ [] := joinSegs_ne_nil st' (hne s0 (by simp))
    have hcne : clean p ≠ ['/'] := by
      rw [hclean]
      intro hc
      injection hc with _ h2
      exact hjne h2
    have hsplit : splitOnSlash (clean p) = [] :: s0 :: st' := by
      rw [hclean]
      exact splitOnSlash_join _ (by simp) hnosl
    have hmem_ok : ∀ s ∈ [] :: s0 :: st', s ≠ ['.', '.'] := by
      intro s hs
      rcases List.mem_cons.mp hs with rfl | hmem
      · simp
      · exact (hgood s hmem).2.2.1
    by_cases hcond : (ends_with_slash p || !has_ext (clean p)) = true
    · have hcp : canonical p = clean p ++ ['/'] := by
        rw [canonical_eq, if_pos hcne, if_pos hcond]
      rw [hcp, splitOnSlash_concat_slash, hsplit]
      intro s hs
      rcases List.mem_append.mp hs with h1 | h2
      · exact hmem_ok s h1
      · rw [List.mem_singleton.mp h2]
        simp
    · have hcp : canonical p = clean p := by
        rw [canonical_eq, if_pos hcne, if_neg hcond]
      rw [hcp, hsplit]
      exact hmem_ok

/-! ## Root-level `..` collapse and slash collapse -/

lemma cleanStep_dotdot_nil : cleanStep [] ['.', '.'] = [] := by decide

lemma root_dotdot (rest : List Char) :
    canonical ('/' :: '.' :: '.' :: '/' :: rest) = canonical ('/' :: rest) := by
  have hstack_eq : (splitOnSlash ('/' :: '.' :: '.' :: '/' :: rest)).foldl cleanStep [] =
      (splitOnSlash ('/' :: rest)).foldl cleanStep [] := by
    rw [splitOnSlash_slash ('.' :: '.' :: '/' :: rest),
      show ('.' :: '.' :: '/' :: rest) = ['.', '.'] ++ '/' :: rest from rfl,
      splitOnSlash_seg_slash (by decide), splitOnSlash_slash rest]
    simp only [List.foldl_cons, cleanStep_nil_seg, cleanStep_dotdot_nil]
  have hclean_eq : clean ('/' :: '.' :: '.' :: '/' :: rest) = clean ('/' :: rest) := by
    rw [clean, clean, hstack_eq]
  have hends : ends_with_slash ('/' :: '.' :: '.' :: '/' :: rest) =
      ends_with_slash ('/' :: rest) := by
    rcases List.eq_nil_or_concat rest with rfl | ⟨r', b, hrb⟩
    · decide
    · rw [List.concat_eq_append] at hrb
      subst hrb
      have h1 : ('/' :: '.' :: '.' :: '/' :: (r' ++ [b])) =
          ('/' :: '.' :: '.' :: '/' :: r') ++ [b] := by simp
      have h2 : ('/' :: (r' ++ [b])) = ('/' :: r') ++ [b] := by simp
      rw [h1, h2, ends_with_slash, ends_with_slash, List.getLast?_concat,
        List.getLast?_concat]
  rw [canonical_eq, canonical_eq, hclean_eq, hends]

lemma collapse_step (x y : List Char) :
    canonical (x ++ '/' :: '/' :: y) = canonical (x ++ '/' :: y) := by
  have hstack_eq : (splitOnSlash (x ++ '/' :: '/' :: y)).foldl cleanStep [] =
      (splitOnSlash (x ++ '/' :: y)).foldl cleanStep [] := by
    rw [splitOnSlash_append_slash x ('/' :: y), splitOnSlash_append_slash x y,
      splitOnSlash_slash y, List.foldl_append, List.foldl_append,
      List.foldl_cons, cleanStep_nil_seg]
  have hclean_eq : clean (x ++ '/' :: '/' :: y) = clean (x ++ '/' :: y) := by
    rw [clean, clean, hstack_eq]
  have hends : ends_with_slash (x ++ '/' :: '/' :: y) =
      ends_with_slash (x ++ '/' :: y) := by
    rcases List.eq_nil_or_concat y with rfl | ⟨y', b, hyb⟩
    · rw [ends_with_true_of_rep (x ++ ['/']) (by simp),
        ends_with_true_of_rep x (by simp)]
    · rw [List.concat_eq_append] at hyb
      subst hyb
      have h1 : (x ++ '/' :: '/' :: (y' ++ [b])) = (x ++ '/' :: '/' :: y') ++ [b] := by
        simp
      have h2 : (x ++ '/' :: (y' ++ [b])) = (x ++ '/' :: y') ++ [b] := by simp
      rw [h1, h2, ends_with_slash, ends_with_slash, List.getLast?_concat,
        List.getLast?_concat]
  rw [canonical_eq, canonical_eq, hclean_eq, hends]

/-! ## The output never contains a doubled slash -/

lemma containsSub_dbl_cons_false {a : Char} (ha : a ≠ '/') (l : List Char) :
    containsSub ['/', '/'] (a :: l) = containsSub ['/', '/'] l := by
  have hb : begins ['/', '/'] (a :: l) = false := by
    simp [begins, Ne.symm ha]
  rw [containsSub, hb, Bool.false_or]

lemma containsSub_dbl_slash_cons {l : List Char} (hl : l.head? ≠ some '/') :
    containsSub ['/', '/'] ('/' :: l) = containsSub ['/', '/'] l := by
  have hb : begins ['/', '/'] ('/' :: l) = false := by
    cases l with
    | nil => rfl
    | cons b l' =>
      have hbne : b ≠ '/' := by
        intro hcontra
        exact hl (by rw [hcontra]; rfl)
      simp [begins, Ne.symm hbne]
  rw [containsSub, hb, Bool.false_or]

lemma containsSub_dbl_seg {s : List Char} (hs : '/' ∉ s) (r : List Char) :
    containsSub ['/', '/'] (s ++ r) = containsSub ['/', '/'] r := by
  induction s with
  | nil => rfl
  | cons a s' ih =>
    have ha : a ≠ '/' := fun he => hs (he ▸ List.mem_cons_self a s')
    rw [List.cons_append, containsSub_dbl_cons_false ha,
      ih (fun hm => hs (List.mem_cons_of_mem a hm))]

lemma join_no_dbl :
    ∀ (s0 : List Char) (st' : List (List Char)),
      (∀ s ∈ s0 :: st', s ≠ [] ∧ '/' ∉ s) →
      containsSub ['/', '/'] ('/' :: joinSegs (s0 :: st')) = false ∧
        containsSub ['/', '/'] ('/' :: (joinSegs (s0 :: st') ++ ['/'])) = false := by
  intro s0 st'
  induction st' generalizing s0 with
  | nil =>
    intro h
    have hs0 := h s0 (List.mem_singleton.mpr rfl)
    rcases hs0 with ⟨hne0, hsl0⟩
    rcases s0 with _ | ⟨a, s0'⟩
    · exact absurd rfl hne0
    have ha : a ≠ '/' := fun he => hsl0 (he ▸ List.mem_cons_self a s0')
    have h1 : joinSegs [a :: s0'] = a :: s0' := rfl
    constructor
    · rw [h1, containsSub_dbl_slash_cons (by simp [ha]),
        show (a :: s0' : List Char) = (a :: s0') ++ [] by simp,
        containsSub_dbl_seg hsl0]
      rfl
    · rw [h1, containsSub_dbl_slash_cons (by simp [ha]), List.cons_append,
        containsSub_dbl_cons_false ha,
        containsSub_dbl_seg (fun hm => hsl0 (List.mem_cons_of_mem a hm))]
      decide
  | cons t st'' ih =>
    intro h
    have hs0 := h s0 (List.mem_cons_self s0 (t :: st''))
    rcases hs0 with ⟨hne0, hsl0⟩
    rcases s0 with _ | ⟨a, s0'⟩
    · exact absurd rfl hne0
    have ha : a ≠ '/' := fun he => hsl0 (he ▸ List.mem_cons_self a s0')
    have hih := ih t (fun s hs => h s (List.mem_cons_of_mem _ hs))
    have hj : joinSegs ((a :: s0') :: t :: st'') =
        (a :: s0') ++ '/' :: joinSegs (t :: st'') := joinSegs_cons _ (by simp)
    constructor
    · rw [hj, containsSub_dbl_slash_cons (by simp [ha]),
        containsSub_dbl_seg hsl0]
      exact hih.1
    · rw [hj,
        show ((a :: s0') ++ '/' :: joinSegs (t :: st'')) ++ ['/'] =
          (a :: s0') ++ '/' :: (joinSegs (t :: st'') ++ ['/']) by simp,
        containsSub_dbl_slash_cons (by simp [ha]),
        containsSub_dbl_seg hsl0]
      exact hih.2

lemma canonical_no_dbl (p : List Char) :
    containsSub ['/', '/'] (canonical p) = false := by
  have hgood := stack_good p
  rcases hst : (splitOnSlash p).foldl cleanStep [] with _ | ⟨s0, st'⟩
  · have hclean : clean p = ['/'] := by rw [clean, hst]; rfl
    have hcp : canonical p = ['/'] := by
      rw [canonical_eq, if_neg (fun hne => hne hclean), hclean]
    rw [hcp]
    decide
  · rw [hst] at hgood
    have hne : ∀ s ∈ s0 :: st', s ≠ [] := fun s hs => (hgood s hs).1
    have hnosl : ∀ s ∈ s0 :: st', '/' ∉ s := fun s hs => (hgood s hs).2.2.2
    have hclean : clean p = '/' :: joinSegs (s0 :: st') := by rw [clean, hst]
    have hjne : joinSegs (s0 :: st') ≠ [] := joinSegs_ne_nil st' (hne s0 (by simp))
    have hcne : clean p ≠ ['/'] := by
      rw [hclean]
      intro hc
      injection hc with _ h2
      exact hjne h2
    have hjd := join_no_dbl s0 st' (fun s hs => ⟨hne s hs, hnosl s hs⟩)
    by_cases hcond : (ends_with_slash p || !has_ext (clean p)) = true
    · have hcp : canonical p = clean p ++ ['/'] := by
        rw [canonical_eq, if_pos hcne, if_pos hcond]
      rw [hcp, hclean, List.cons_append]
      exact hjd.2
    · have hcp : canonical p = clean p := by
        rw [canonical_eq, if_pos hcne, if_neg hcond]
      rw [hcp, hclean]
      exact hjd.1

/-- C7: no escape above root — for any input path starting with `/`, the
path the request proceeds with (original on pass-through, redirect target
otherwise) starts with `/` and contains no `..` segment; moreover a
root-level `..` is simply collapsed into the root, so `/../rest`
canonicalizes exactly like `/rest`. -/
theorem no_escape_above_root (p rest : List Char) :
    (p.head? = some '/' →
      (outPath p).head? = some '/' ∧ ∀ s ∈ splitOnSlash (outPath p), s ≠ ['.', '.']) ∧
      canonical ('/' :: '.' :: '.' :: '/' :: rest) = canonical ('/' :: rest) := by
  refine ⟨fun hhead => ?_, root_dotdot rest⟩
  rcases outPath_cases p with ⟨hf, ho⟩ | ho
  · rw [ho]
    refine ⟨hhead, ?_⟩
    cases p with
    | nil => simp at hhead
    | cons a q =>
      have ha : a = '/' := by simpa using hhead
      subst ha
      intro s hs
      rw [splitOnSlash_slash] at hs
      rcases List.mem_cons.mp hs with rfl | hmem
      · simp
      · have hdot := (fastCond_split hf).1
        have h := tail_head_ne ('/' :: q) '.' hdot
        rw [splitOnSlash_slash, List.tail_cons] at h
        intro hcontra
        exact h s hmem (hcontra ▸ rfl)
  · rw [ho]
    exact ⟨canonical_head p, canonical_no_dotdot p⟩

/-- Witness for C7 at the concrete input `/../foo`. -/
theorem no_escape_above_root_witness :
    (str "/../foo").head? = some '/' ∧
      ((outPath (str "/../foo")).head? = some '/' ∧
        ∀ s ∈ splitOnSlash (outPath (str "/../foo")), s ≠ ['.', '.']) ∧
      canonical ('/' :: '.' :: '.' :: '/' :: str "foo") = canonical ('/' :: str "foo") :=
  ⟨by decide, (no_escape_above_root (str "/../foo") (str "foo")).1 (by decide),
    (no_escape_above_root (str "/../foo") (str "foo")).2⟩

/-- C9: slash collapse — replacing a doubled `/` anywhere in the input by a
single `/` does not change the canonical output (so any run of consecutive
slashes contributes exactly one `/`), and the path the request proceeds
with never contains the substring `//`. -/
theorem slash_collapse (x y p : List Char) :
    canonical (x ++ '/' :: '/' :: y) = canonical (x ++ '/' :: y) ∧
      containsSub ['/', '/'] (outPath p) = false := by
  refine ⟨collapse_step x y, ?_⟩
  rcases outPath_cases p with ⟨hf, ho⟩ | ho
  · rw [ho]
    exact (fastCond_split hf).2.1
  · rw [ho]
    exact canonical_no_dbl p

/-- C8: concrete scenarios — `//`, `//a//b//`, `//a//b//.`, `//a//b//./`,
`//m.js`, `/a//m.js` and `/m.` each redirect to their listed canonical
form, while `/`, `/a/`, `/a/b/`, `/m.js` and `/m./` pass through
unchanged. -/
theorem redirect_scenarios :
    handle (str "//") = Outcome.redirect (str "/") ∧
    handle (str "//a//b//") = Outcome.redirect (str "/a/b/") ∧
    handle (str "//a//b//.") = Outcome.redirect (str "/a/b/") ∧
    handle (str "//a//b//./") = Outcome.redirect (str "/a/b/") ∧
    handle (str "//m.js") = Outcome.redirect (str "/m.js") ∧
    handle (str "/a//m.js") = Outcome.redirect (str "/a/m.js") ∧
    handle (str "/m.") = Outcome.redirect (str "/m./") ∧
    handle (str "/") = Outcome.unchanged ∧
    handle (str "/a/") = Outcome.unchanged ∧
    handle (str "/a/b/") = Outcome.unchanged ∧
    handle (str "/m.js") = Outcome.unchanged ∧
    handle (str "/m./") = Outcome.unchanged := by
  decide
